import Mathlib

/-!
Verification of the query-processing and path-resolution core of the
probe code-search tool.

The Rust sources `src/search/query.rs` and `src/path_resolver/mod.rs`
are embedded shallowly: strings are Lean `String`s (lists of characters;
Rust's UTF-8 byte handling is modelled at character granularity),
`HashSet<usize>` is `Finset Nat`, Rust's `std::collections::HashMap`
grouping is modelled by an insertion-ordered association list together
with an explicit iteration order (the order in which Rust's `HashMap`
yields its entries is unspecified, so theorems quantify over all
permutations of the entry list where it matters).
-/

/-- Models Rust `char::to_lowercase` restricted to ASCII: an ASCII
uppercase letter (code points 65-90) is shifted by 32, everything else is
kept.  (Rust performs full Unicode lowering; the queries the claims are
about are ASCII.) -/
def lowerChar (c : Char) : Char :=
  if h : 65 ≤ c.toNat ∧ c.toNat ≤ 90 then
    ⟨⟨⟨c.toNat + 32, by omega⟩⟩, Or.inl (by
      show c.toNat + 32 < 55296
      omega)⟩
  else c

/-- Models Rust `str::to_lowercase` (ASCII fragment): lowers every character. -/
def toLowerStr (s : String) : String := ⟨s.data.map lowerChar⟩

/-- Models Rust `char::is_whitespace` on the ASCII whitespace characters. -/
def wsChar (c : Char) : Bool :=
  c == ' ' || c == '\t' || c == '\n' || c == '\r' || c == '\x0b' || c == '\x0c'

/-- Accumulator-passing splitter behind `split_whitespace`: `acc` holds the
current token reversed; empty tokens are never emitted. -/
def wsGo (acc : List Char) : List Char → List String
  | [] => if acc = [] then [] else [⟨acc.reverse⟩]
  | c :: rest =>
    if wsChar c then
      (if acc = [] then wsGo [] rest else ⟨acc.reverse⟩ :: wsGo [] rest)
    else wsGo (c :: acc) rest

/-- Models Rust `str::split_whitespace`: splits on whitespace and yields
only non-empty tokens. -/
def split_whitespace (s : String) : List String := wsGo [] s.data

def isUpperA (c : Char) : Bool := 65 ≤ c.toNat && c.toNat ≤ 90

def isLowerA (c : Char) : Bool := 97 ≤ c.toNat && c.toNat ≤ 122

def isDigitA (c : Char) : Bool := 48 ≤ c.toNat && c.toNat ≤ 57

/-- Modelled from the spec: the camel-case boundary test of
`split_camel_case` (the function lives in `src/search/tokenization.rs`,
which is not part of the provided sources).  A boundary falls between a
previous character `p` and the current character `c` (with lookahead `nx`)
at a lowercase-to-uppercase transition, at a letter/digit transition in
either direction, and at an acronym termination (upper-upper followed by
lower, so that `HTTPServer` splits as `HTTP`, `Server`). -/
def camelBoundary (p c : Char) (nx : Option Char) : Bool :=
  (isLowerA p && isUpperA c) ||
  (isUpperA p && isUpperA c && (match nx with | some d => isLowerA d | none => false)) ||
  (isDigitA p && (isLowerA c || isUpperA c)) ||
  ((isLowerA p || isUpperA p) && isDigitA c)

/-- Worker for `split_camel_case`: `p` is the previously consumed
character, `acc` the current chunk reversed (never empty). -/
def camelGo (p : Char) (acc : List Char) : List Char → List String
  | [] => [⟨acc.reverse⟩]
  | c :: rest =>
    if camelBoundary p c rest.head? then
      ⟨acc.reverse⟩ :: camelGo c [c] rest
    else camelGo c (c :: acc) rest

/-- Modelled from the spec: `split_camel_case` from
`src/search/tokenization.rs` (not part of the provided sources) — splits a
token on camel-case boundaries: lowercase-to-uppercase transitions, digit
boundaries, and acronym terminations. -/
def split_camel_case (w : String) : List String :=
  match w.data with
  | [] => []
  | c :: rest => camelGo c [c] rest

/-- Modelled from the spec: the English stop-word list consulted by
`is_english_stop_word` in `src/search/tokenization.rs` (not part of the
provided sources); a standard English stop-word set. -/
def stop_words : List String :=
  ["a", "an", "and", "are", "as", "at", "be", "but", "by", "for", "if",
   "in", "into", "is", "it", "no", "not", "of", "on", "or", "such",
   "that", "the", "their", "then", "there", "these", "they", "this",
   "to", "was", "will", "with"]

/-- Modelled from the spec: `is_english_stop_word` from
`src/search/tokenization.rs` (not part of the provided sources). -/
def is_english_stop_word (w : String) : Bool := stop_words.contains w

/-- Suffix-stripping core of the modelled stemmer, on character lists. -/
def stemList (l : List Char) : List Char :=
  if 5 ≤ l.length ∧ ['i', 'n', 'g'].isSuffixOf l then l.take (l.length - 3)
  else if 4 ≤ l.length ∧ ['e', 'd'].isSuffixOf l then l.take (l.length - 2)
  else if 3 ≤ l.length ∧ ['s'].isSuffixOf l ∧ ¬ (['s', 's'].isSuffixOf l = true) then
    l.take (l.length - 1)
  else l

/-- Modelled from the spec: the Porter-style English stemmer obtained via
`ranking::get_stemmer()` (the `ranking` module is not part of the provided
sources).  Only the suffix-stripping behaviour needed by the claims is
modelled: `ing`/`ed`/plural-`s` removal guarded so the stem stays
non-empty; e.g. `whitelisting` stems to `whitelist`.  Theorems about
`preprocess_query` quantify over an arbitrary stemmer, and use this model
only to instantiate witnesses. -/
def stem_model (w : String) : String := ⟨stemList w.data⟩

/-- Concatenates a list of lists, modelling `Iterator::flat_map`. -/
def joinAll {α : Type} : List (List α) → List α
  | [] => []
  | l :: rest => l ++ joinAll rest

/-- Embeds `preprocess_query` from `src/search/query.rs` (lines 9-42),
parameterised by the stemmer (obtained in Rust from
`ranking::get_stemmer()`, whose module is not in the provided sources).
Lowercases the query; in exact mode splits on whitespace, drops empty
tokens and pairs each token with itself; otherwise additionally splits
each token on camel-case boundaries, drops empty tokens and English stop
words, and pairs each survivor with its stem. -/
def preprocess_query (stem : String → String) (query : String) (exact : Bool) :
    List (String × String) :=
  let lq := toLowerStr query
  if exact then
    ((split_whitespace lq).filter (fun w => !w.isEmpty)).map (fun w => (w, w))
  else
    ((joinAll ((split_whitespace lq).map split_camel_case)).filter
      (fun w => !w.isEmpty && !is_english_stop_word w)).map (fun w => (w, stem w))

/-- The fourteen regex metacharacters escaped by `regex_escape`
(`src/search/query.rs` lines 46-48). -/
def special_chars : List Char :=
  ['.', '^', '$', '*', '+', '?', '(', ')', '[', ']', '{', '}', '|', '\\']

/-- Accumulator form of the escaping loop of `regex_escape`: the Rust
loop pushes a backslash before each special character. -/
def escGo (acc : List Char) : List Char → List Char
  | [] => acc
  | c :: rest => escGo (if special_chars.contains c then acc ++ ['\\', c] else acc ++ [c]) rest

/-- Embeds `regex_escape` from `src/search/query.rs` (lines 45-59). -/
def regex_escape (s : String) : String := ⟨escGo [] s.data⟩

/-- Spec-side reading of the escape set: exactly the characters
`. ^ $ * + ? ( ) [ ] \x7b \x7d | \`, written as an explicit disjunction
to compare against the source's list. -/
def isSpecialSpec (c : Char) : Bool :=
  c == '.' || c == '^' || c == '$' || c == '*' || c == '+' || c == '?' ||
  c == '(' || c == ')' || c == '[' || c == ']' || c == '{' || c == '}' ||
  c == '|' || c == '\\'

/-- Spec-side escaping: a single backslash inserted immediately before
each special character, all other characters copied through in order. -/
def escSpec : List Char → List Char
  | [] => []
  | c :: rest => (if isSpecialSpec c then ['\\', c] else [c]) ++ escSpec rest

/-- The claim's reading of `regex_escape`, built directly from the spec's
words, to be compared with the embedding. -/
def regex_escape_spec (s : String) : String := ⟨escSpec s.data⟩

/-- Spec-side reading of the non-exact branch of `preprocess_query`:
token by token, split on camel case, keep survivors, pair with stems. -/
def preprocess_query_spec (stem : String → String) (query : String) :
    List (String × String) :=
  (split_whitespace (toLowerStr query)).foldr
    (fun t acc =>
      ((split_camel_case t).filter
        (fun w => !w.isEmpty && !is_english_stop_word w)).map (fun w => (w, stem w)) ++ acc)
    []

/-- The `base_pattern` of `create_term_patterns` (`src/search/query.rs`
lines 75-79): the escaped original, or an alternation of escaped original
and escaped stem when they differ. -/
def baseOf (o s : String) : String :=
  if o = s then regex_escape o
  else "(" ++ regex_escape o ++ "|" ++ regex_escape s ++ ")"

/-- The single-term pattern string with combined word boundaries
(`src/search/query.rs` line 86). -/
def singlePat (o s : String) : String :=
  "(\\b" ++ baseOf o s ++ "|" ++ baseOf o s ++ "\\b)"

/-- The enumerated single-term patterns (`src/search/query.rs` lines
74-89), carrying the index base `i`. -/
def singleGo (i : Nat) : List (String × String) → List (String × Finset Nat)
  | [] => []
  | (o, s) :: rest => (singlePat o s, {i}) :: singleGo (i + 1) rest

/-- The `terms` list of `create_term_patterns` (lines 94-98): for each
pair, the original and the stem, each tagged with the pair's index. -/
def termsGo (i : Nat) : List (String × String) → List (String × Nat)
  | [] => []
  | (o, s) :: rest => (o, i) :: (s, i) :: termsGo (i + 1) rest

def termsOf (pairs : List (String × String)) : List (String × Nat) :=
  termsGo 0 pairs

/-- Ordered length-2 selections of elements at distinct positions, in
itertools `permutations(2)` order: first element by ascending position,
second over the remaining positions in ascending order (`pre` holds the
elements before the cursor). -/
def perms2Go (pre : List α) : List α → List (α × α)
  | [] => []
  | x :: suf => (pre ++ suf).map (fun y => (x, y)) ++ perms2Go (pre ++ [x]) suf

def perms2 (l : List α) : List (α × α) := perms2Go [] l

/-- Value-level deduplication keeping first occurrences, modelling
itertools `unique()`. -/
def uniqAux [DecidableEq α] (seen : List α) : List α → List α
  | [] => []
  | a :: rest => if a ∈ seen then uniqAux seen rest else a :: uniqAux (a :: seen) rest

def uniqueFirst [DecidableEq α] (l : List α) : List α := uniqAux [] l

/-- The `term_indices` key of a permutation (line 107). -/
def keyOf (p : (String × Nat) × (String × Nat)) : List Nat := [p.1.2, p.2.2]

/-- The concatenated escaped pattern of a permutation (lines 115-118). -/
def concatOf (p : (String × Nat) × (String × Nat)) : String :=
  regex_escape p.1.1 ++ regex_escape p.2.1

/-- The deduplicated permutations that survive the same-index skip (lines
105-112): both elements must carry distinct term indices. -/
def cperms (pairs : List (String × String)) : List ((String × Nat) × (String × Nat)) :=
  (uniqueFirst (perms2 (termsOf pairs))).filter (fun p => p.1.2 ≠ p.2.2)

/-- One step of the `HashMap::entry(..).or_default().push(..)` grouping
(lines 121-124), on an insertion-ordered association list: appends the
value to an existing key's group, or adds a new key at the end. -/
def insertGroup (k : List Nat) (v : String) :
    List (List Nat × List String) → List (List Nat × List String)
  | [] => [(k, [v])]
  | (k2, vs) :: rest =>
    if k2 = k then (k2, vs ++ [v]) :: rest else (k2, vs) :: insertGroup k v rest

def groupFold (acc : List (List Nat × List String)) :
    List ((String × Nat) × (String × Nat)) → List (List Nat × List String)
  | [] => acc
  | p :: rest => groupFold (insertGroup (keyOf p) (concatOf p) acc) rest

/-- The compound groups of `create_term_patterns`, keyed by the ordered
index pair, in first-insertion order.  Rust iterates the `HashMap` in an
unspecified order; theorems therefore accept any permutation of this
list. -/
def compoundGroups (pairs : List (String × String)) : List (List Nat × List String) :=
  groupFold [] (cperms pairs)

/-- Emission of one group (lines 128-135): a singleton group's pattern is
pushed bare, a larger group is joined with `|` inside parentheses; the
key list becomes the `term_indices` set. -/
def emitGroup (g : List Nat × List String) : String × Finset Nat :=
  match g.2 with
  | [p] => (p, g.1.toFinset)
  | ps => ("(" ++ String.intercalate "|" ps ++ ")", g.1.toFinset)

/-- Embeds `create_term_patterns` from `src/search/query.rs` (lines
70-140), with the compound-group iteration order `gs` made explicit:
Rust's `HashMap` yields the groups in an unspecified order, so `gs`
ranges over permutations of `compoundGroups pairs`. -/
def create_term_patterns_ord (pairs : List (String × String))
    (gs : List (List Nat × List String)) : List (String × Finset Nat) :=
  singleGo 0 pairs ++ (if 1 < pairs.length then gs.map emitGroup else [])

/-- `create_term_patterns` under the canonical (first-insertion) group
order — one of the possible behaviours of the Rust function. -/
def create_term_patterns (pairs : List (String × String)) : List (String × Finset Nat) :=
  create_term_patterns_ord pairs (compoundGroups pairs)

/-- Abstract syntax of the regex fragment the generated single-term
patterns use: escaped literals, alternation (always rendered inside
parentheses, as the source builds it), concatenation, and the word
boundary `\b`. -/
inductive RE where
  | lit (s : String)
  | alt (a b : RE)
  | seq (a b : RE)
  | wb

/-- Renders a regex AST to the concrete pattern syntax the source
synthesises: literals are escaped with `regex_escape`, alternations are
parenthesised. -/
def render : RE → String
  | .lit s => regex_escape s
  | .alt a b => "(" ++ render a ++ "|" ++ render b ++ ")"
  | .seq a b => render a ++ render b
  | .wb => "\\b"

/-- A word character in the regex `\b` sense. -/
def isWordChar (c : Char) : Bool := c.isAlphanum || c == '_'

def wordAt (t : List Char) (i : Nat) : Bool :=
  match t.get? i with
  | some c => isWordChar c
  | none => false

/-- Whether a `\b` assertion holds between positions `i-1` and `i` of the
text `t` (positions 0 and `t.length` included). -/
def boundaryAt (t : List Char) (i : Nat) : Bool :=
  (if i = 0 then false else wordAt t (i - 1)) != wordAt t i

/-- `MatchSpan r t i j` states that the regex `r` matches the span
`[i, j)` of the text `t`; `\b` consumes nothing and requires a word
boundary at its position. -/
inductive MatchSpan : RE → List Char → Nat → Nat → Prop where
  | lit (s : String) (t : List Char) (i : Nat)
      (h : (t.drop i).take s.data.length = s.data) :
      MatchSpan (.lit s) t i (i + s.data.length)
  | seqM {a b : RE} {t : List Char} {i j k : Nat}
      (h1 : MatchSpan a t i j) (h2 : MatchSpan b t j k) :
      MatchSpan (.seq a b) t i k
  | altL {a b : RE} {t : List Char} {i j : Nat}
      (h : MatchSpan a t i j) : MatchSpan (.alt a b) t i j
  | altR {a b : RE} {t : List Char} {i j : Nat}
      (h : MatchSpan b t i j) : MatchSpan (.alt a b) t i j
  | wbM {t : List Char} {i : Nat} (h : boundaryAt t i = true) :
      MatchSpan .wb t i i

/-- The AST of the `base_pattern` of a term pair. -/
def baseRE (o s : String) : RE :=
  if o = s then .lit o else .alt (.lit o) (.lit s)

/-- The AST of the generated single-term pattern `(\b base | base \b)`. -/
def singleRE (o s : String) : RE :=
  .alt (.seq .wb (baseRE o s)) (.seq (baseRE o s) .wb)

/-- A language-specific path resolver (`src/path_resolver/mod.rs` lines
20-61): its prefix and its two fallible operations.  The three concrete
implementations (`go.rs`, `javascript.rs`, `rust.rs`) are not part of the
provided sources, so they stay abstract. -/
structure Resolver where
  pref : String
  splitModule : String → Except String (String × Option String)
  resolveMod : String → Except String String

/-- Models `str::starts_with` at character granularity. -/
def strStarts (s p : String) : Bool := p.data.isPrefixOf s.data

/-- Models `str::ends_with` at character granularity. -/
def strEnds (s p : String) : Bool := p.data.isSuffixOf s.data

/-- Models `str::strip_prefix`: the remainder after `p` when `s` starts
with `p`. -/
def dropPref (p s : String) : Option String :=
  if strStarts s p then some (⟨s.data.drop p.data.length⟩ : String) else none

/-- Models `Path::strip_prefix("/")` on the subpath (`mod.rs` lines
121-123): a leading slash is removed so the subpath joins as relative. -/
def dropSlash (s : String) : String :=
  if strStarts s "/" then ⟨s.data.drop 1⟩ else s

/-- Models `PathBuf::join` with a relative right operand. -/
def joinPath (base rel : String) : String := base ++ "/" ++ rel

/-- The body of the prefix-match arm of `resolve_path` (`mod.rs` lines
99-129): split into module and subpath, resolve the module, then join
the subpath if present and non-empty; errors are wrapped with context. -/
def applyResolver (r : Resolver) (after : String) : Except String String :=
  match r.splitModule after with
  | .error e =>
    .error ("Failed to parse path '" ++ after ++ "' for prefix '" ++ r.pref ++ "': " ++ e)
  | .ok (m, subOpt) =>
    match r.resolveMod m with
    | .error e =>
      .error ("Failed to resolve module '" ++ m ++ "' for prefix '" ++ r.pref ++ "': " ++ e)
    | .ok base =>
      .ok (match subOpt with
           | some sub => if sub.isEmpty then base else joinPath base (dropSlash sub)
           | none => base)

/-- The resolver loop of `resolve_path` (`mod.rs` lines 87-134): a
resolver whose prefix does not end in `:` is skipped; the first resolver
whose prefix starts the path handles it; with no match the path is
returned unchanged. -/
def resolve_path_with (path : String) : List Resolver → Except String String
  | [] => .ok path
  | r :: rest =>
    if !(strEnds r.pref ":") then resolve_path_with path rest
    else
      match dropPref r.pref path with
      | some after => applyResolver r after
      | none => resolve_path_with path rest

/-- Embeds `resolve_path` from `src/path_resolver/mod.rs` (lines 78-135).
Modelled from the spec: the three resolvers carry the prefixes `go:`,
`js:` and `rust:` (stated in the module's documentation); their
`split_module_and_subpath` and `resolve` implementations live in files
not part of the provided sources and are taken as parameters. -/
def resolve_path
    (goSplit jsSplit rustSplit : String → Except String (String × Option String))
    (goRes jsRes rustRes : String → Except String String)
    (path : String) : Except String String :=
  resolve_path_with path
    [⟨"go:", goSplit, goRes⟩, ⟨"js:", jsSplit, jsRes⟩, ⟨"rust:", rustSplit, rustRes⟩]

/-- A string with no uppercase ASCII letter (code points 65-90): the
sense in which the pipeline's outputs are lowercase under the ASCII model
of `to_lowercase`. -/
def lowerFree (s : String) : Prop := ∀ c ∈ s.data, c.toNat < 65 ∨ 90 < c.toNat

theorem special_eq (c : Char) : special_chars.contains c = isSpecialSpec c := by
  simp only [special_chars, isSpecialSpec, List.contains_cons, List.contains_nil,
    Bool.or_false, Bool.or_assoc]

theorem special_mem (c : Char) : c ∈ special_chars ↔ isSpecialSpec c = true := by
  rw [← special_eq]
  exact ⟨fun h => List.elem_eq_true_of_mem h, fun h => List.mem_of_elem_eq_true h⟩

theorem escGo_spec (l : List Char) : ∀ acc : List Char, escGo acc l = acc ++ escSpec l := by
  induction l with
  | nil => intro acc; simp [escGo, escSpec]
  | cons c rest ih =>
    intro acc
    cases hc : isSpecialSpec c <;>
      simp [escGo, escSpec, ih, special_mem, hc]

/-- Claim C5: `regex_escape` inserts a single backslash immediately before
each occurrence of exactly the characters `. ^ $ * + ? ( ) [ ] \x7b \x7d | \`
and copies every other character through unchanged, in order. -/
theorem regex_escape_correct (s : String) : regex_escape s = regex_escape_spec s := by
  show String.mk (escGo [] s.data) = String.mk (escSpec s.data)
  rw [escGo_spec]
  rfl

theorem str_isEmpty_false (t : String) (h : t.data ≠ []) : t.isEmpty = false := by
  rw [Bool.eq_false_iff]
  intro he
  exact h (by rw [(String.isEmpty_iff t).mp he])

theorem wsGo_ne (l : List Char) : ∀ acc : List Char, ∀ t ∈ wsGo acc l, t.data ≠ [] := by
  induction l with
  | nil =>
    intro acc t ht
    unfold wsGo at ht
    split at ht
    · simp at ht
    · next h =>
      simp at ht
      subst ht
      show acc.reverse ≠ []
      simpa using h
  | cons c rest ih =>
    intro acc t ht
    unfold wsGo at ht
    split at ht
    · split at ht
      · exact ih [] t ht
      · next h =>
        rcases List.mem_cons.mp ht with h1 | h1
        · subst h1
          show acc.reverse ≠ []
          simpa using h
        · exact ih [] t h1
    · exact ih (c :: acc) t ht

theorem wsGo_chars (l : List Char) :
    ∀ acc : List Char, ∀ t ∈ wsGo acc l, ∀ c ∈ t.data, c ∈ acc ∨ c ∈ l := by
  induction l with
  | nil =>
    intro acc t ht c hc
    unfold wsGo at ht
    split at ht
    · simp at ht
    · simp at ht
      subst ht
      left
      exact List.mem_reverse.mp hc
  | cons d rest ih =>
    intro acc t ht c hc
    unfold wsGo at ht
    split at ht
    · split at ht
      · rcases ih [] t ht c hc with h1 | h1
        · simp at h1
        · exact Or.inr (List.mem_cons_of_mem d h1)
      · rcases List.mem_cons.mp ht with h1 | h1
        · subst h1
          exact Or.inl (List.mem_reverse.mp hc)
        · rcases ih [] t h1 c hc with h2 | h2
          · simp at h2
          · exact Or.inr (List.mem_cons_of_mem d h2)
    · rcases ih (d :: acc) t ht c hc with h1 | h1
      · rcases List.mem_cons.mp h1 with h2 | h2
        · exact Or.inr (h2 ▸ List.mem_cons_self d rest)
        · exact Or.inl h2
      · exact Or.inr (List.mem_cons_of_mem d h1)

theorem camelGo_ne (l : List Char) :
    ∀ (p : Char) (acc : List Char), acc ≠ [] → ∀ t ∈ camelGo p acc l, t.data ≠ [] := by
  induction l with
  | nil =>
    intro p acc hacc t ht
    unfold camelGo at ht
    simp at ht
    subst ht
    show acc.reverse ≠ []
    simpa using hacc
  | cons c rest ih =>
    intro p acc hacc t ht
    unfold camelGo at ht
    split at ht
    · rcases List.mem_cons.mp ht with h1 | h1
      · subst h1
        show acc.reverse ≠ []
        simpa using hacc
      · exact ih c [c] (by simp) t h1
    · exact ih c (c :: acc) (by simp) t ht

theorem camelGo_chars (l : List Char) :
    ∀ (p : Char) (acc : List Char), ∀ t ∈ camelGo p acc l, ∀ ch ∈ t.data, ch ∈ acc ∨ ch ∈ l := by
  induction l with
  | nil =>
    intro p acc t ht ch hch
    unfold camelGo at ht
    simp at ht
    subst ht
    exact Or.inl (List.mem_reverse.mp hch)
  | cons c rest ih =>
    intro p acc t ht ch hch
    unfold camelGo at ht
    split at ht
    · rcases List.mem_cons.mp ht with h1 | h1
      · subst h1
        exact Or.inl (List.mem_reverse.mp hch)
      · rcases ih c [c] t h1 ch hch with h2 | h2
        · simp at h2
          exact Or.inr (h2 ▸ List.mem_cons_self c rest)
        · exact Or.inr (List.mem_cons_of_mem c h2)
    · rcases ih c (c :: acc) t ht ch hch with h1 | h1
      · rcases List.mem_cons.mp h1 with h2 | h2
        · exact Or.inr (h2 ▸ List.mem_cons_self c rest)
        · exact Or.inl h2
      · exact Or.inr (List.mem_cons_of_mem c h1)

theorem split_whitespace_ne (s : String) : ∀ t ∈ split_whitespace s, t.data ≠ [] :=
  fun t ht => wsGo_ne s.data [] t ht

theorem split_whitespace_chars (s : String) :
    ∀ t ∈ split_whitespace s, ∀ c ∈ t.data, c ∈ s.data := by
  intro t ht c hc
  rcases wsGo_chars s.data [] t ht c hc with h | h
  · simp at h
  · exact h

theorem split_camel_ne (w : String) : ∀ t ∈ split_camel_case w, t.data ≠ [] := by
  intro t ht
  unfold split_camel_case at ht
  split at ht
  · simp at ht
  · exact camelGo_ne _ _ _ (by simp) t ht

theorem split_camel_chars (w : String) :
    ∀ t ∈ split_camel_case w, ∀ ch ∈ t.data, ch ∈ w.data := by
  intro t ht ch hch
  unfold split_camel_case at ht
  split at ht
  · simp at ht
  · next c rest heq =>
    rw [heq]
    rcases camelGo_chars rest c [c] t ht ch hch with h | h
    · simp at h
      exact h ▸ List.mem_cons_self c rest
    · exact List.mem_cons_of_mem c h

theorem joinfold (P : String → Bool) (F : String → String × String) (toks : List String) :
    ((joinAll (toks.map split_camel_case)).filter P).map F =
      toks.foldr
        (fun t acc => ((split_camel_case t).filter P).map F ++ acc) [] := by
  induction toks with
  | nil => simp [joinAll]
  | cons t rest ih => simp [joinAll, List.filter_append, List.map_append, ih]

/-- Claim C1: with `exact = false`, `preprocess_query` lowercases the
query, splits on whitespace, splits each token on camel-case boundaries
(`split_camel_case` sends `HTTPServer` to `HTTP`, `Server`), drops empty
tokens and English stop words, and pairs each surviving token with its
stem — for any stemmer. -/
theorem preprocess_query_nonexact (stem : String → String) (q : String) :
    preprocess_query stem q false = preprocess_query_spec stem q ∧
      split_camel_case "HTTPServer" = ["HTTP", "Server"] := by
  constructor
  · unfold preprocess_query preprocess_query_spec
    simp only [Bool.false_eq_true, if_false]
    exact joinfold _ _ _
  · decide

/-- Claim C4: with `exact = true`, `preprocess_query` splits the
lowercased query on whitespace only and pairs each non-empty token with
itself, applying no stemming and no stop-word filtering — the stop word
`the` survives. -/
theorem preprocess_query_exact (stem : String → String) (q : String) :
    preprocess_query stem q true =
        (split_whitespace (toLowerStr q)).map (fun t => (t, t)) ∧
      preprocess_query stem_model "The quick the" true =
        [("the", "the"), ("quick", "quick"), ("the", "the")] := by
  constructor
  · unfold preprocess_query
    simp only [if_true]
    rw [List.filter_eq_self.mpr]
    intro a ha
    simp [str_isEmpty_false a (split_whitespace_ne _ a ha)]
  · decide

theorem lowerChar_free (c : Char) :
    (lowerChar c).toNat < 65 ∨ 90 < (lowerChar c).toNat := by
  unfold lowerChar
  split
  · next h =>
    right
    show 90 < c.toNat + 32
    omega
  · next h =>
    omega

theorem toLowerStr_free (s : String) : lowerFree (toLowerStr s) := by
  intro c hc
  rcases List.mem_map.mp hc with ⟨d, _, hd⟩
  exact hd ▸ lowerChar_free d

theorem joinAll_mem {α : Type} (ls : List (List α)) (a : α) :
    a ∈ joinAll ls ↔ ∃ l ∈ ls, a ∈ l := by
  induction ls with
  | nil => simp [joinAll]
  | cons l rest ih => simp [joinAll, ih]

theorem stemList_sub (l : List Char) : ∀ c ∈ stemList l, c ∈ l := by
  intro c hc
  unfold stemList at hc
  split_ifs at hc <;> first
    | exact List.take_subset _ _ hc
    | exact hc

theorem stemList_ne (l : List Char) (h : l ≠ []) : stemList l ≠ [] := by
  have hl : 0 < l.length := List.length_pos.mpr h
  unfold stemList
  split_ifs with h1 h2 h3
  · have h5 := h1.1
    refine List.ne_nil_of_length_pos ?_
    rw [List.length_take]
    omega
  · have h4 := h2.1
    refine List.ne_nil_of_length_pos ?_
    rw [List.length_take]
    omega
  · have h3a := h3.1
    refine List.ne_nil_of_length_pos ?_
    rw [List.length_take]
    omega
  · exact h

theorem stem_model_ne (w : String) (h : w.data ≠ []) : (stem_model w).data ≠ [] :=
  stemList_ne w.data h

theorem stem_model_free (w : String) (h : lowerFree w) : lowerFree (stem_model w) :=
  fun c hc => h c (stemList_sub w.data c hc)

theorem preprocess_true (stem : String → String) (q : String) :
    preprocess_query stem q true =
      ((split_whitespace (toLowerStr q)).filter (fun w => !w.isEmpty)).map
        (fun w => (w, w)) := rfl

theorem preprocess_false (stem : String → String) (q : String) :
    preprocess_query stem q false =
      ((joinAll ((split_whitespace (toLowerStr q)).map split_camel_case)).filter
        (fun w => !w.isEmpty && !is_english_stop_word w)).map
        (fun w => (w, stem w)) := rfl

/-- Claim C8: under any stemmer that preserves non-emptiness and
absence of uppercase ASCII, every term pair returned by
`preprocess_query` has non-empty, uppercase-free components; in non-exact
mode no original is a stop word; the originals are, in order and with
duplicates, a sublist of the token stream (so duplicate pairs keep their
source order); and each stem component is the stem of its original (the
original itself in exact mode). -/
theorem term_pair_invariants (stem : String → String) (q : String) (ex : Bool)
    (hne : ∀ w : String, w.data ≠ [] → (stem w).data ≠ [])
    (hlf : ∀ w : String, lowerFree w → lowerFree (stem w)) :
    (∀ pr ∈ preprocess_query stem q ex,
        pr.1.data ≠ [] ∧ pr.2.data ≠ [] ∧ lowerFree pr.1 ∧ lowerFree pr.2 ∧
          (ex = false → is_english_stop_word pr.1 = false)) ∧
      List.Sublist ((preprocess_query stem q ex).map Prod.fst)
        (if ex then split_whitespace (toLowerStr q)
         else joinAll ((split_whitespace (toLowerStr q)).map split_camel_case)) ∧
      ∀ pr ∈ preprocess_query stem q ex, pr.2 = if ex then pr.1 else stem pr.1 := by
  cases ex with
  | true =>
    refine ⟨?_, ?_, ?_⟩
    · intro pr hpr
      rw [preprocess_true] at hpr
      rcases List.mem_map.mp hpr with ⟨w, hw, rfl⟩
      have hwT : w ∈ split_whitespace (toLowerStr q) := List.mem_of_mem_filter hw
      have hnd : w.data ≠ [] := split_whitespace_ne _ w hwT
      have hlw : lowerFree w := fun c hc =>
        toLowerStr_free q c (split_whitespace_chars _ w hwT c hc)
      exact ⟨hnd, hnd, hlw, hlw, fun habs => by simp at habs⟩
    · rw [preprocess_true]
      simp only [List.map_map]
      have hid : (Prod.fst ∘ fun w : String => (w, w)) = id := rfl
      rw [hid, List.map_id]
      have hsub : ((split_whitespace (toLowerStr q)).filter
          (fun w => !w.isEmpty)).Sublist (split_whitespace (toLowerStr q)) :=
        List.filter_sublist _
      simpa using hsub
    · intro pr hpr
      rw [preprocess_true] at hpr
      rcases List.mem_map.mp hpr with ⟨w, hw, rfl⟩
      simp
  | false =>
    refine ⟨?_, ?_, ?_⟩
    · intro pr hpr
      rw [preprocess_false] at hpr
      rcases List.mem_map.mp hpr with ⟨w, hw, rfl⟩
      rcases List.mem_filter.mp hw with ⟨hJ, hpred⟩
      simp only [Bool.and_eq_true, Bool.not_eq_true'] at hpred
      have hstop : is_english_stop_word w = false := hpred.2
      rcases (joinAll_mem _ w).mp hJ with ⟨l, hl, hwl⟩
      rcases List.mem_map.mp hl with ⟨tok, htok, rfl⟩
      have hnd : w.data ≠ [] := split_camel_ne tok w hwl
      have hlw : lowerFree w := fun c hc =>
        toLowerStr_free q c
          (split_whitespace_chars _ tok htok c (split_camel_chars tok w hwl c hc))
      exact ⟨hnd, hne w hnd, hlw, hlf w hlw, fun _ => hstop⟩
    · rw [preprocess_false]
      simp only [List.map_map]
      have hid : (Prod.fst ∘ fun w : String => (w, stem w)) = id := rfl
      rw [hid, List.map_id]
      have hsub : ((joinAll ((split_whitespace (toLowerStr q)).map
            split_camel_case)).filter
          (fun w => !w.isEmpty && !is_english_stop_word w)).Sublist
          (joinAll ((split_whitespace (toLowerStr q)).map split_camel_case)) :=
        List.filter_sublist _
      simpa using hsub
    · intro pr hpr
      rw [preprocess_false] at hpr
      rcases List.mem_map.mp hpr with ⟨w, hw, rfl⟩
      simp

/-- Witness for `term_pair_invariants`: the model stemmer on the concrete
query `Running dogs` in non-exact mode. -/
theorem term_pair_invariants_witness :
    (∀ pr ∈ preprocess_query stem_model "Running dogs" false,
        pr.1.data ≠ [] ∧ pr.2.data ≠ [] ∧ lowerFree pr.1 ∧ lowerFree pr.2 ∧
          (false = false → is_english_stop_word pr.1 = false)) ∧
      List.Sublist ((preprocess_query stem_model "Running dogs" false).map Prod.fst)
        (if false then split_whitespace (toLowerStr "Running dogs")
         else joinAll
           ((split_whitespace (toLowerStr "Running dogs")).map split_camel_case)) ∧
      ∀ pr ∈ preprocess_query stem_model "Running dogs" false,
        pr.2 = if false then pr.1 else stem_model pr.1 :=
  term_pair_invariants stem_model "Running dogs" false
    (fun w hw => stem_model_ne w hw) (fun w hw => stem_model_free w hw)

theorem perms2Go_mem_of {α : Type} (l : List α) :
    ∀ (pre : List α) (x y : α), x ∈ l → y ∈ pre → (x, y) ∈ perms2Go pre l := by
  induction l with
  | nil => intro pre x y hx _; simp at hx
  | cons a suf ih =>
    intro pre x y hx hy
    unfold perms2Go
    rcases List.mem_cons.mp hx with h1 | h1
    · subst h1
      exact List.mem_append_left _
        (List.mem_map.mpr ⟨y, List.mem_append_left _ hy, rfl⟩)
    · exact List.mem_append_right _ (ih (pre ++ [a]) x y h1 (List.mem_append_left _ hy))

theorem perms2Go_get {α : Type} (l : List α) :
    ∀ (pre : List α) (a b : Nat) (x y : α), a ≠ b →
      l.get? a = some x → l.get? b = some y → (x, y) ∈ perms2Go pre l := by
  induction l with
  | nil => intro pre a b x y _ ha _; simp at ha
  | cons c suf ih =>
    intro pre a b x y hab ha hb
    unfold perms2Go
    cases a with
    | zero =>
      cases b with
      | zero => exact absurd rfl hab
      | succ b =>
        simp only [List.get?_cons_zero, Option.some.injEq] at ha
        simp only [List.get?_cons_succ] at hb
        subst ha
        exact List.mem_append_left _
          (List.mem_map.mpr ⟨y, List.mem_append_right _ (List.get?_mem hb), rfl⟩)
    | succ a =>
      cases b with
      | zero =>
        simp only [List.get?_cons_succ] at ha
        simp only [List.get?_cons_zero, Option.some.injEq] at hb
        subst hb
        exact List.mem_append_right _
          (perms2Go_mem_of suf (pre ++ [c]) x c (List.get?_mem ha)
            (List.mem_append_right _ (List.mem_singleton.mpr rfl)))
      | succ b =>
        simp only [List.get?_cons_succ] at ha hb
        exact List.mem_append_right _
          (ih (pre ++ [c]) a b x y (fun h => hab (by omega)) ha hb)

theorem perms2Go_sub {α : Type} (l : List α) :
    ∀ (pre : List α) (x y : α), (x, y) ∈ perms2Go pre l → x ∈ l ∧ (y ∈ pre ∨ y ∈ l) := by
  induction l with
  | nil => intro pre x y h; simp [perms2Go] at h
  | cons c suf ih =>
    intro pre x y h
    unfold perms2Go at h
    rcases List.mem_append.mp h with h1 | h1
    · rcases List.mem_map.mp h1 with ⟨z, hz, hzz⟩
      injection hzz with h2 h3
      subst h2
      subst h3
      refine ⟨List.mem_cons_self c suf, ?_⟩
      rcases List.mem_append.mp hz with h2 | h2
      · exact Or.inl h2
      · exact Or.inr (List.mem_cons_of_mem c h2)
    · rcases ih (pre ++ [c]) x y h1 with ⟨hx, hy⟩
      refine ⟨List.mem_cons_of_mem c hx, ?_⟩
      rcases hy with h2 | h2
      · rcases List.mem_append.mp h2 with h3 | h3
        · exact Or.inl h3
        · exact Or.inr (List.mem_singleton.mp h3 ▸ List.mem_cons_self c suf)
      · exact Or.inr (List.mem_cons_of_mem c h2)

theorem uniqAux_mem {α : Type} [DecidableEq α] (l : List α) :
    ∀ (seen : List α) (x : α), x ∈ uniqAux seen l ↔ x ∈ l ∧ x ∉ seen := by
  induction l with
  | nil => intro seen x; simp [uniqAux]
  | cons a rest ih =>
    intro seen x
    unfold uniqAux
    split
    · next ha =>
      rw [ih]
      constructor
      · rintro ⟨h1, h2⟩
        exact ⟨List.mem_cons_of_mem a h1, h2⟩
      · rintro ⟨h1, h2⟩
        rcases List.mem_cons.mp h1 with h3 | h3
        · exact absurd (h3 ▸ ha) h2
        · exact ⟨h3, h2⟩
    · next ha =>
      constructor
      · intro h
        rcases List.mem_cons.mp h with h1 | h1
        · exact ⟨h1 ▸ List.mem_cons_self a rest, h1 ▸ ha⟩
        · rcases (ih (a :: seen) x).mp h1 with ⟨h2, h3⟩
          exact ⟨List.mem_cons_of_mem a h2,
            fun hs => h3 (List.mem_cons_of_mem a hs)⟩
      · rintro ⟨h1, h2⟩
        rcases List.mem_cons.mp h1 with h3 | h3
        · exact h3 ▸ List.mem_cons_self _ _
        · by_cases hxa : x = a
          · exact hxa ▸ List.mem_cons_self _ _
          · exact List.mem_cons_of_mem a ((ih (a :: seen) x).mpr
              ⟨h3, fun hs => by
                rcases List.mem_cons.mp hs with h4 | h4
                · exact hxa h4
                · exact h2 h4⟩)

theorem uniqueFirst_mem {α : Type} [DecidableEq α] (l : List α) (x : α) :
    x ∈ uniqueFirst l ↔ x ∈ l := by
  unfold uniqueFirst
  rw [uniqAux_mem]
  simp

theorem termsGo_mem (l : List (String × String)) :
    ∀ (i : Nat), ∀ q ∈ termsGo i l, q.2 < i + l.length := by
  induction l with
  | nil => intro i q hq; simp [termsGo] at hq
  | cons pr rest ih =>
    intro i q hq
    unfold termsGo at hq
    rcases List.mem_cons.mp hq with h1 | h1
    · subst h1; simp
    · rcases List.mem_cons.mp h1 with h2 | h2
      · subst h2; simp
      · have := ih (i + 1) q h2
        simp only [List.length_cons]
        omega

theorem termsGo_get_fst (l : List (String × String)) :
    ∀ (i j : Nat),
      (termsGo i l).get? (2 * j) = (l.get? j).map (fun pr => (pr.1, i + j)) := by
  induction l with
  | nil => intro i j; simp [termsGo]
  | cons pr rest ih =>
    intro i j
    cases j with
    | zero => simp [termsGo]
    | succ j =>
      have h2 : 2 * (j + 1) = 2 * j + 1 + 1 := by omega
      rw [h2]
      unfold termsGo
      rw [List.get?_cons_succ, List.get?_cons_succ, ih (i + 1) j,
        List.get?_cons_succ]
      have h3 : i + 1 + j = i + (j + 1) := by omega
      rw [h3]

theorem cperms_mem_idx (pairs : List (String × String)) :
    ∀ p ∈ cperms pairs,
      p.1.2 < pairs.length ∧ p.2.2 < pairs.length ∧ p.1.2 ≠ p.2.2 := by
  intro p hp
  rcases List.mem_filter.mp hp with ⟨hu, hpred⟩
  have hperm : p ∈ perms2 (termsOf pairs) := (uniqueFirst_mem _ p).mp hu
  have hsub := perms2Go_sub (termsOf pairs) [] p.1 p.2 hperm
  have h1 : p.1 ∈ termsOf pairs := hsub.1
  have h2 : p.2 ∈ termsOf pairs := by
    rcases hsub.2 with h | h
    · simp at h
    · exact h
  have hb1 := termsGo_mem pairs 0 p.1 h1
  have hb2 := termsGo_mem pairs 0 p.2 h2
  exact ⟨by omega, by omega, of_decide_eq_true hpred⟩

theorem cperms_mem_of (pairs : List (String × String)) (i j : Nat)
    (oi si oj sj : String) (hij : i ≠ j)
    (hi : pairs.get? i = some (oi, si)) (hj : pairs.get? j = some (oj, sj)) :
    ((oi, i), (oj, j)) ∈ cperms pairs := by
  have hgi : (termsOf pairs).get? (2 * i) = some (oi, i) := by
    rw [termsOf, termsGo_get_fst pairs 0 i, hi]
    simp
  have hgj : (termsOf pairs).get? (2 * j) = some (oj, j) := by
    rw [termsOf, termsGo_get_fst pairs 0 j, hj]
    simp
  have hperm : ((oi, i), (oj, j)) ∈ perms2 (termsOf pairs) :=
    perms2Go_get (termsOf pairs) [] (2 * i) (2 * j) (oi, i) (oj, j)
      (by omega) hgi hgj
  exact List.mem_filter.mpr
    ⟨(uniqueFirst_mem _ _).mpr hperm, decide_eq_true hij⟩

theorem insertGroup_keys (k : List Nat) (v : String) :
    ∀ acc : List (List Nat × List String),
      (insertGroup k v acc).map Prod.fst =
        if k ∈ acc.map Prod.fst then acc.map Prod.fst
        else acc.map Prod.fst ++ [k] := by
  intro acc
  induction acc with
  | nil => simp [insertGroup]
  | cons g rest ih =>
    unfold insertGroup
    by_cases hk : g.1 = k
    · rw [if_pos hk]
      simp [hk]
    · rw [if_neg hk]
      simp only [List.map_cons, List.mem_cons]
      rw [ih]
      by_cases hmem : k ∈ rest.map Prod.fst
      · rw [if_pos hmem, if_pos (Or.inr hmem)]
      · rw [if_neg hmem, if_neg (by
          rintro (h | h)
          · exact hk h.symm
          · exact hmem h)]
        simp

theorem insertGroup_keys_nodup (k : List Nat) (v : String)
    (acc : List (List Nat × List String)) (h : (acc.map Prod.fst).Nodup) :
    ((insertGroup k v acc).map Prod.fst).Nodup := by
  rw [insertGroup_keys]
  by_cases hmem : k ∈ acc.map Prod.fst
  · rw [if_pos hmem]; exact h
  · rw [if_neg hmem]
    refine List.Nodup.append h (List.nodup_singleton k) ?_
    intro a ha hak
    rw [List.mem_singleton] at hak
    exact hmem (hak ▸ ha)

theorem insertGroup_vals_ne (k : List Nat) (v : String) :
    ∀ acc : List (List Nat × List String),
      (∀ g ∈ acc, g.2 ≠ []) → ∀ g ∈ insertGroup k v acc, g.2 ≠ [] := by
  intro acc
  induction acc with
  | nil =>
    intro _ g hg
    simp only [insertGroup, List.mem_singleton] at hg
    subst hg
    simp
  | cons g0 rest ih =>
    intro hacc g hg
    unfold insertGroup at hg
    split at hg
    · rcases List.mem_cons.mp hg with h1 | h1
      · subst h1
        simp
      · exact hacc g (List.mem_cons_of_mem g0 h1)
    · rcases List.mem_cons.mp hg with h1 | h1
      · exact h1 ▸ hacc g0 (List.mem_cons_self g0 rest)
      · exact ih (fun g2 hg2 => hacc g2 (List.mem_cons_of_mem g0 hg2)) g h1

theorem groupFold_keys_mem (ps : List ((String × Nat) × (String × Nat))) :
    ∀ (acc : List (List Nat × List String)) (k : List Nat),
      k ∈ (groupFold acc ps).map Prod.fst ↔
        k ∈ acc.map Prod.fst ∨ k ∈ ps.map keyOf := by
  induction ps with
  | nil => intro acc k; simp [groupFold]
  | cons p rest ih =>
    intro acc k
    unfold groupFold
    rw [ih, insertGroup_keys]
    by_cases hmem : keyOf p ∈ acc.map Prod.fst
    · rw [if_pos hmem]
      simp only [List.map_cons, List.mem_cons, List.not_mem_nil, or_false]
      constructor
      · rintro (h | h)
        · exact Or.inl h
        · exact Or.inr (Or.inr h)
      · rintro (h | h | h)
        · exact Or.inl h
        · exact Or.inl (h ▸ hmem)
        · exact Or.inr h
    · rw [if_neg hmem]
      simp only [List.mem_append, List.mem_singleton, List.map_cons, List.mem_cons,
        List.not_mem_nil, or_false]
      constructor
      · rintro ((h | h) | h)
        · exact Or.inl h
        · exact Or.inr (Or.inl h)
        · exact Or.inr (Or.inr h)
      · rintro (h | h | h)
        · exact Or.inl (Or.inl h)
        · exact Or.inl (Or.inr h)
        · exact Or.inr h

theorem groupFold_keys_nodup (ps : List ((String × Nat) × (String × Nat))) :
    ∀ acc : List (List Nat × List String),
      (acc.map Prod.fst).Nodup → ((groupFold acc ps).map Prod.fst).Nodup := by
  induction ps with
  | nil => intro acc h; exact h
  | cons p rest ih =>
    intro acc h
    exact ih _ (insertGroup_keys_nodup _ _ acc h)

theorem groupFold_vals_ne (ps : List ((String × Nat) × (String × Nat))) :
    ∀ acc : List (List Nat × List String),
      (∀ g ∈ acc, g.2 ≠ []) → ∀ g ∈ groupFold acc ps, g.2 ≠ [] := by
  induction ps with
  | nil => intro acc h; exact h
  | cons p rest ih =>
    intro acc h
    exact ih _ (insertGroup_vals_ne _ _ acc h)

theorem compoundGroups_keys_nodup (pairs : List (String × String)) :
    ((compoundGroups pairs).map Prod.fst).Nodup :=
  groupFold_keys_nodup _ [] (by simp)

theorem compoundGroups_vals_ne (pairs : List (String × String)) :
    ∀ g ∈ compoundGroups pairs, g.2 ≠ [] :=
  groupFold_vals_ne _ [] (by simp)

theorem compoundGroups_keys_mem (pairs : List (String × String)) (k : List Nat) :
    k ∈ (compoundGroups pairs).map Prod.fst ↔
      ∃ i j, i < pairs.length ∧ j < pairs.length ∧ i ≠ j ∧ k = [i, j] := by
  rw [compoundGroups, groupFold_keys_mem]
  simp only [List.map_nil, List.not_mem_nil, false_or]
  constructor
  · intro h
    rcases List.mem_map.mp h with ⟨p, hp, hk⟩
    rcases cperms_mem_idx pairs p hp with ⟨h1, h2, h3⟩
    exact ⟨p.1.2, p.2.2, h1, h2, h3, hk ▸ rfl⟩
  · rintro ⟨i, j, hi, hj, hij, rfl⟩
    have hgi : ∃ pri, pairs.get? i = some pri :=
      ⟨pairs.get ⟨i, hi⟩, List.get?_eq_get hi⟩
    have hgj : ∃ prj, pairs.get? j = some prj :=
      ⟨pairs.get ⟨j, hj⟩, List.get?_eq_get hj⟩
    rcases hgi with ⟨⟨oi, si⟩, hgi⟩
    rcases hgj with ⟨⟨oj, sj⟩, hgj⟩
    have hmem := cperms_mem_of pairs i j oi si oj sj hij hgi hgj
    exact List.mem_map.mpr ⟨((oi, i), (oj, j)), hmem, rfl⟩

theorem mul_pred_eq (k : Nat) : k * k - k = k * (k - 1) := by
  cases k with
  | zero => rfl
  | succ n =>
    rw [Nat.succ_sub_one, Nat.mul_succ, Nat.add_sub_cancel]

theorem compoundGroups_length (pairs : List (String × String)) :
    (compoundGroups pairs).length = pairs.length * (pairs.length - 1) := by
  classical
  set k := pairs.length with hk
  have hnd : ((compoundGroups pairs).map Prod.fst).Nodup :=
    compoundGroups_keys_nodup pairs
  have hlen : (compoundGroups pairs).length =
      ((compoundGroups pairs).map Prod.fst).length := (List.length_map _ _).symm
  have hcard : ((compoundGroups pairs).map Prod.fst).length =
      ((compoundGroups pairs).map Prod.fst).toFinset.card :=
    (List.toFinset_card_of_nodup hnd).symm
  have hset : ((compoundGroups pairs).map Prod.fst).toFinset =
      ((Finset.range k ×ˢ Finset.range k).filter
        (fun q => q.1 ≠ q.2)).image (fun q => [q.1, q.2]) := by
    ext x
    simp only [List.mem_toFinset, Finset.mem_image, Finset.mem_filter,
      Finset.mem_product, Finset.mem_range]
    rw [compoundGroups_keys_mem]
    constructor
    · rintro ⟨i, j, hi, hj, hij, rfl⟩
      exact ⟨(i, j), ⟨⟨hi, hj⟩, hij⟩, rfl⟩
    · rintro ⟨⟨i, j⟩, ⟨⟨hi, hj⟩, hij⟩, rfl⟩
      exact ⟨i, j, hi, hj, hij, rfl⟩
  have hdiag : ((Finset.range k).image (fun i => (i, i))) ⊆
      Finset.range k ×ˢ Finset.range k := by
    intro q hq
    rcases Finset.mem_image.mp hq with ⟨i, hi, rfl⟩
    exact Finset.mem_product.mpr ⟨hi, hi⟩
  have hfe : (Finset.range k ×ˢ Finset.range k).filter (fun q => q.1 ≠ q.2) =
      (Finset.range k ×ˢ Finset.range k) \
        ((Finset.range k).image (fun i => (i, i))) := by
    ext q
    simp only [Finset.mem_filter, Finset.mem_sdiff, Finset.mem_product,
      Finset.mem_range, Finset.mem_image]
    constructor
    · rintro ⟨⟨h1, h2⟩, h3⟩
      exact ⟨⟨h1, h2⟩, fun ⟨i, _, hii⟩ => h3 (by
        have e1 : i = q.1 := congrArg Prod.fst hii
        have e2 : i = q.2 := congrArg Prod.snd hii
        omega)⟩
    · rintro ⟨⟨h1, h2⟩, h3⟩
      refine ⟨⟨h1, h2⟩, fun he => h3 ⟨q.1, h1, ?_⟩⟩
      exact Prod.ext rfl he
  have hinj : Set.InjOn (fun q : Nat × Nat => [q.1, q.2])
      ((Finset.range k ×ˢ Finset.range k).filter (fun q => q.1 ≠ q.2)) := by
    rintro ⟨a, b⟩ _ ⟨c, d⟩ _ h
    simp only [List.cons.injEq, and_true] at h
    exact Prod.ext h.1 h.2
  rw [hlen, hcard, hset, Finset.card_image_of_injOn hinj, hfe,
    Finset.card_sdiff hdiag, Finset.card_product, Finset.card_range,
    Finset.card_image_of_injective _ (fun a b hab => congrArg Prod.fst hab),
    Finset.card_range, mul_pred_eq]

theorem emitGroup_eq (g : List Nat × List String) (h : g.2 ≠ []) :
    emitGroup g =
      (if g.2.length = 1 then String.intercalate "|" g.2
       else "(" ++ String.intercalate "|" g.2 ++ ")", g.1.toFinset) := by
  rcases g with ⟨k, vs⟩
  cases vs with
  | nil => exact absurd rfl h
  | cons v rest =>
    cases rest with
    | nil =>
      simp only [emitGroup, List.length_cons, List.length_nil]
      rfl
    | cons v2 rest2 => simp [emitGroup]

theorem singleGo_get (l : List (String × String)) :
    ∀ i j : Nat, (singleGo i l).get? j =
      (l.get? j).map (fun pr => (singlePat pr.1 pr.2, ({i + j} : Finset Nat))) := by
  induction l with
  | nil => intro i j; simp [singleGo]
  | cons pr rest ih =>
    intro i j
    cases j with
    | zero => simp [singleGo]
    | succ j =>
      unfold singleGo
      rw [List.get?_cons_succ, ih (i + 1) j, List.get?_cons_succ]
      have h3 : i + 1 + j = i + (j + 1) := by omega
      rw [h3]

theorem singleGo_length (l : List (String × String)) :
    ∀ i : Nat, (singleGo i l).length = l.length := by
  induction l with
  | nil => intro i; rfl
  | cons pr rest ih => intro i; simp [singleGo, ih]

theorem singleGo_mem (l : List (String × String)) :
    ∀ (i : Nat), ∀ x ∈ singleGo i l, ∃ j, j < l.length ∧ x.2 = {i + j} := by
  induction l with
  | nil => intro i x hx; simp [singleGo] at hx
  | cons pr rest ih =>
    intro i x hx
    unfold singleGo at hx
    rcases List.mem_cons.mp hx with h1 | h1
    · exact ⟨0, by simp, by rw [h1]; simp⟩
    · rcases ih (i + 1) x h1 with ⟨j, hj, hx2⟩
      exact ⟨j + 1, by simp; omega, by rw [hx2]; congr 1; omega⟩

theorem emitGroup_snd (g : List Nat × List String) : (emitGroup g).2 = g.1.toFinset := by
  rcases g with ⟨k, vs⟩
  cases vs with
  | nil => rfl
  | cons v rest =>
    cases rest with
    | nil => rfl
    | cons v2 rest2 => rfl

/-- Claim C2 is false as frozen: compound groups holding a single
concatenation are emitted bare, without the parentheses the claim
prescribes — for the pairs (a, a), (b, b) the pattern list contains `ab`
and not `(ab)`. -/
theorem compound_paren_cex :
    (create_term_patterns [("a", "a"), ("b", "b")]).map Prod.fst =
        ["(\\ba|a\\b)", "(\\bb|b\\b)", "ab", "ba"] ∧
      "(ab)" ∉ (create_term_patterns [("a", "a"), ("b", "b")]).map Prod.fst := by
  refine ⟨by decide, by decide⟩

/-- Claim C2 (amended): with k ≥ 2 term pairs and any iteration order of
the compound groups, `create_term_patterns` is the k single-term patterns
followed by exactly k·(k−1) compound patterns; every compound group is
keyed by an ordered pair [i, j] of distinct valid term indices (same-index
permutations having been skipped), and emits one pattern with
`term_indices` {i, j} whose string is the group's concatenations joined by
`|` — inside parentheses when the group has at least two concatenations,
and the bare concatenation when it has exactly one. -/
theorem compound_patterns_amended (pairs : List (String × String))
    (gs : List (List Nat × List String)) (hk : 2 ≤ pairs.length)
    (hgs : gs.Perm (compoundGroups pairs)) :
    create_term_patterns_ord pairs gs = singleGo 0 pairs ++ gs.map emitGroup ∧
      (gs.map emitGroup).length = pairs.length * (pairs.length - 1) ∧
      ∀ g ∈ gs,
        (∃ i j, i < pairs.length ∧ j < pairs.length ∧ i ≠ j ∧ g.1 = [i, j]) ∧
        g.2 ≠ [] ∧
        emitGroup g =
          (if g.2.length = 1 then String.intercalate "|" g.2
           else "(" ++ String.intercalate "|" g.2 ++ ")", g.1.toFinset) := by
  refine ⟨?_, ?_, ?_⟩
  · unfold create_term_patterns_ord
    rw [if_pos (by omega)]
  · rw [List.length_map, hgs.length_eq, compoundGroups_length]
  · intro g hg
    have hgc : g ∈ compoundGroups pairs := hgs.mem_iff.mp hg
    have hkey : g.1 ∈ (compoundGroups pairs).map Prod.fst :=
      List.mem_map_of_mem Prod.fst hgc
    rcases (compoundGroups_keys_mem pairs g.1).mp hkey with ⟨i, j, hi, hj, hij, hk1⟩
    have hne : g.2 ≠ [] := compoundGroups_vals_ne pairs g hgc
    exact ⟨⟨i, j, hi, hj, hij, hk1⟩, hne, emitGroup_eq g hne⟩

/-- Witness for `compound_patterns_amended` at the term pairs of the query
`ip whitelisting` under the canonical group order. -/
theorem compound_patterns_amended_witness :
    create_term_patterns_ord [("ip", "ip"), ("whitelisting", "whitelist")]
        (compoundGroups [("ip", "ip"), ("whitelisting", "whitelist")]) =
      singleGo 0 [("ip", "ip"), ("whitelisting", "whitelist")] ++
        (compoundGroups [("ip", "ip"), ("whitelisting", "whitelist")]).map emitGroup ∧
      ((compoundGroups [("ip", "ip"), ("whitelisting", "whitelist")]).map
          emitGroup).length =
        [("ip", "ip"), ("whitelisting", "whitelist")].length *
          ([("ip", "ip"), ("whitelisting", "whitelist")].length - 1) ∧
      ∀ g ∈ compoundGroups [("ip", "ip"), ("whitelisting", "whitelist")],
        (∃ i j, i < [("ip", "ip"), ("whitelisting", "whitelist")].length ∧
          j < [("ip", "ip"), ("whitelisting", "whitelist")].length ∧ i ≠ j ∧
          g.1 = [i, j]) ∧
        g.2 ≠ [] ∧
        emitGroup g =
          (if g.2.length = 1 then String.intercalate "|" g.2
           else "(" ++ String.intercalate "|" g.2 ++ ")", g.1.toFinset) :=
  compound_patterns_amended [("ip", "ip"), ("whitelisting", "whitelist")]
    (compoundGroups [("ip", "ip"), ("whitelisting", "whitelist")])
    (by decide) (List.Perm.refl _)

/-- Claim C7 is false as frozen: the compound groups are drawn from a
`std::collections::HashMap` whose iteration order is unspecified and can
differ between two runs on equal input; two admissible orders of the same
groups give pattern lists that differ (in the order of their compound
patterns). -/
theorem determinism_cex :
    ([([0, 1], ["ab"]), ([1, 0], ["ba"])].Perm
        (compoundGroups [("a", "a"), ("b", "b")])) ∧
      ([([1, 0], ["ba"]), ([0, 1], ["ab"])].Perm
        (compoundGroups [("a", "a"), ("b", "b")])) ∧
      create_term_patterns_ord [("a", "a"), ("b", "b")]
          [([0, 1], ["ab"]), ([1, 0], ["ba"])] ≠
        create_term_patterns_ord [("a", "a"), ("b", "b")]
          [([1, 0], ["ba"]), ([0, 1], ["ab"])] := by
  refine ⟨by decide, by decide, by decide⟩

/-- Claim C7 (amended): `create_term_patterns` is deterministic up to the
order of its compound patterns: the single-term prefix is a fixed list,
and any two iteration orders of the compound groups give pattern lists
that are permutations of each other — the pattern multiset is a function
of the input alone. -/
theorem determinism_up_to_order (pairs : List (String × String))
    (gs1 gs2 : List (List Nat × List String))
    (h1 : gs1.Perm (compoundGroups pairs)) (h2 : gs2.Perm (compoundGroups pairs)) :
    (create_term_patterns_ord pairs gs1).Perm (create_term_patterns_ord pairs gs2) := by
  unfold create_term_patterns_ord
  refine List.Perm.append (List.Perm.refl _) ?_
  by_cases hlen : 1 < pairs.length
  · rw [if_pos hlen, if_pos hlen]
    exact (h1.trans h2.symm).map emitGroup
  · rw [if_neg hlen, if_neg hlen]

/-- Witness for `determinism_up_to_order`: the two orders of the
counterexample's groups produce permuted pattern lists. -/
theorem determinism_up_to_order_witness :
    (create_term_patterns_ord [("a", "a"), ("b", "b")]
        [([0, 1], ["ab"]), ([1, 0], ["ba"])]).Perm
      (create_term_patterns_ord [("a", "a"), ("b", "b")]
        [([1, 0], ["ba"]), ([0, 1], ["ab"])]) :=
  determinism_up_to_order [("a", "a"), ("b", "b")]
    [([0, 1], ["ab"]), ([1, 0], ["ba"])] [([1, 0], ["ba"]), ([0, 1], ["ab"])]
    (by decide) (by decide)

/-- Claim C6: the query `ip whitelisting` preprocesses to the pairs
(ip, ip), (whitelisting, whitelist), and under any group iteration order
the pattern set contains the compound pattern
`(ipwhitelisting|ipwhitelist)` with `term_indices` {0, 1} — whose
alternatives are the concatenations matching `ipwhitelisting` and
`ipWhitelist` — and the compound pattern `(whitelistingip|whitelistip)`
with `term_indices` {0, 1}, whose alternatives match `whitelistingIp` and
`whitelistIp`. -/
theorem compound_coverage_ip (gs : List (List Nat × List String))
    (hgs : gs.Perm (compoundGroups [("ip", "ip"), ("whitelisting", "whitelist")])) :
    preprocess_query stem_model "ip whitelisting" false =
        [("ip", "ip"), ("whitelisting", "whitelist")] ∧
      ("(ipwhitelisting|ipwhitelist)", ({0, 1} : Finset Nat)) ∈
        create_term_patterns_ord [("ip", "ip"), ("whitelisting", "whitelist")] gs ∧
      ("(whitelistingip|whitelistip)", ({0, 1} : Finset Nat)) ∈
        create_term_patterns_ord [("ip", "ip"), ("whitelisting", "whitelist")] gs := by
  refine ⟨by decide, ?_, ?_⟩ <;>
  · unfold create_term_patterns_ord
    rw [if_pos (by decide)]
    refine List.mem_append_right _ ?_
    rw [(hgs.map emitGroup).mem_iff]
    decide

/-- Witness for `compound_coverage_ip` under the canonical group order. -/
theorem compound_coverage_ip_witness :
    preprocess_query stem_model "ip whitelisting" false =
        [("ip", "ip"), ("whitelisting", "whitelist")] ∧
      ("(ipwhitelisting|ipwhitelist)", ({0, 1} : Finset Nat)) ∈
        create_term_patterns_ord [("ip", "ip"), ("whitelisting", "whitelist")]
          (compoundGroups [("ip", "ip"), ("whitelisting", "whitelist")]) ∧
      ("(whitelistingip|whitelistip)", ({0, 1} : Finset Nat)) ∈
        create_term_patterns_ord [("ip", "ip"), ("whitelisting", "whitelist")]
          (compoundGroups [("ip", "ip"), ("whitelisting", "whitelist")]) :=
  compound_coverage_ip
    (compoundGroups [("ip", "ip"), ("whitelisting", "whitelist")])
    (List.Perm.refl _)

/-- Claim C10: every pattern carries a non-empty `term_indices` set whose
members are valid indices into the pair list; no pairs give no patterns;
one pair gives exactly one pattern. -/
theorem pattern_indices_invariants (pairs : List (String × String))
    (gs : List (List Nat × List String)) (hgs : gs.Perm (compoundGroups pairs)) :
    (∀ pr ∈ create_term_patterns_ord pairs gs,
        pr.2.Nonempty ∧ ∀ i ∈ pr.2, i < pairs.length) ∧
      (pairs = [] → create_term_patterns_ord pairs gs = []) ∧
      (pairs.length = 1 → (create_term_patterns_ord pairs gs).length = 1) := by
  refine ⟨?_, ?_, ?_⟩
  · intro pr hpr
    unfold create_term_patterns_ord at hpr
    rcases List.mem_append.mp hpr with h1 | h1
    · rcases singleGo_mem pairs 0 pr h1 with ⟨j, hj, hpr2⟩
      rw [hpr2]
      refine ⟨⟨0 + j, Finset.mem_singleton_self _⟩, ?_⟩
      intro i hi
      rw [Finset.mem_singleton] at hi
      omega
    · by_cases hlen : 1 < pairs.length
      · rw [if_pos hlen] at h1
        rcases List.mem_map.mp h1 with ⟨g, hg, rfl⟩
        have hgc : g ∈ compoundGroups pairs := hgs.mem_iff.mp hg
        have hkey : g.1 ∈ (compoundGroups pairs).map Prod.fst :=
          List.mem_map_of_mem Prod.fst hgc
        rcases (compoundGroups_keys_mem pairs g.1).mp hkey with
          ⟨i, j, hi, hj, hij, hk1⟩
        rw [emitGroup_snd, hk1]
        refine ⟨⟨i, by simp⟩, ?_⟩
        intro a ha
        simp only [List.toFinset_cons, List.toFinset_nil, Finset.mem_insert,
          Finset.not_mem_empty, or_false] at ha
        rcases ha with h | h
        · omega
        · omega
      · rw [if_neg hlen] at h1
        simp at h1
  · intro h
    subst h
    rfl
  · intro h
    unfold create_term_patterns_ord
    rw [if_neg (by omega)]
    rw [List.append_nil, singleGo_length, h]

/-- Witness for `pattern_indices_invariants` at a single concrete pair. -/
theorem pattern_indices_invariants_witness :
    (∀ pr ∈ create_term_patterns_ord [("code", "code")]
        (compoundGroups [("code", "code")]),
        pr.2.Nonempty ∧ ∀ i ∈ pr.2, i < [("code", "code")].length) ∧
      ([("code", "code")] = ([] : List (String × String)) →
        create_term_patterns_ord [("code", "code")]
          (compoundGroups [("code", "code")]) = []) ∧
      ([("code", "code")].length = 1 →
        (create_term_patterns_ord [("code", "code")]
          (compoundGroups [("code", "code")])).length = 1) :=
  pattern_indices_invariants [("code", "code")]
    (compoundGroups [("code", "code")]) (List.Perm.refl _)

theorem matchSpan_lit_self (s : String) :
    MatchSpan (.lit s) s.data 0 s.data.length := by
  have h := MatchSpan.lit s s.data 0 (by simp)
  simpa using h

theorem boundary_zero (t : List Char) (h : wordAt t 0 = true) :
    boundaryAt t 0 = true := by
  unfold boundaryAt
  rw [if_pos rfl, h]
  rfl

theorem singleRE_matches (o s : String) (ho : wordAt o.data 0 = true)
    (hs : wordAt s.data 0 = true) :
    MatchSpan (singleRE o s) o.data 0 o.data.length ∧
      MatchSpan (singleRE o s) s.data 0 s.data.length := by
  constructor
  · apply MatchSpan.altL
    refine MatchSpan.seqM (MatchSpan.wbM (boundary_zero _ ho)) ?_
    unfold baseRE
    split
    · exact matchSpan_lit_self o
    · exact MatchSpan.altL (matchSpan_lit_self o)
  · apply MatchSpan.altL
    refine MatchSpan.seqM (MatchSpan.wbM (boundary_zero _ hs)) ?_
    unfold baseRE
    split
    · next h => rw [h]; exact matchSpan_lit_self s
    · exact MatchSpan.altR (matchSpan_lit_self s)

theorem render_baseRE (o s : String) : render (baseRE o s) = baseOf o s := by
  by_cases h : o = s <;> simp [baseRE, baseOf, render, h]

theorem render_singleRE (o s : String) : render (singleRE o s) = singlePat o s := by
  apply String.ext
  have e1 : ("(".data : List Char) ++ "\\b".data = "(\\b".data := rfl
  have e2 : ("\\b".data : List Char) ++ ")".data = "\\b)".data := rfl
  simp only [singleRE, singlePat, render, render_baseRE, String.data_append,
    List.append_assoc]
  rw [← List.append_assoc "(".data "\\b".data, e1]
  rfl

/-- Claim C3: for every pair list and every index i into it, the i-th
emitted pattern is the single-term pattern
`(\b base | base \b)` with `term_indices` {i}, where
`base = regex_escape original` when original equals stemmed and
`( regex_escape original | regex_escape stemmed )` otherwise; its syntax
tree renders to exactly that string and matches both the original and the
stemmed term as standalone words (each starting with a word
character). -/
theorem single_term_pattern (pairs : List (String × String))
    (gs : List (List Nat × List String)) (i : Nat) (o s : String)
    (hget : pairs.get? i = some (o, s))
    (ho : wordAt o.data 0 = true) (hs : wordAt s.data 0 = true) :
    (create_term_patterns_ord pairs gs).get? i =
        some ("(\\b" ++ baseOf o s ++ "|" ++ baseOf o s ++ "\\b)",
          ({i} : Finset Nat)) ∧
      baseOf o s = (if o = s then regex_escape o
        else "(" ++ regex_escape o ++ "|" ++ regex_escape s ++ ")") ∧
      render (singleRE o s) =
        "(\\b" ++ baseOf o s ++ "|" ++ baseOf o s ++ "\\b)" ∧
      MatchSpan (singleRE o s) o.data 0 o.data.length ∧
      MatchSpan (singleRE o s) s.data 0 s.data.length := by
  have hi : i < pairs.length := by
    by_contra hge
    rw [List.get?_eq_none.mpr (by omega)] at hget
    exact Option.noConfusion hget
  refine ⟨?_, rfl, render_singleRE o s, (singleRE_matches o s ho hs).1,
    (singleRE_matches o s ho hs).2⟩
  unfold create_term_patterns_ord
  rw [List.get?_append (by rw [singleGo_length]; omega)]
  rw [singleGo_get pairs 0 i, hget]
  simp [singlePat]

/-- Witness for `single_term_pattern` at the pair
(whitelisting, whitelist). -/
theorem single_term_pattern_witness :
    (create_term_patterns_ord [("whitelisting", "whitelist")]
        (compoundGroups [("whitelisting", "whitelist")])).get? 0 =
        some ("(\\b" ++ baseOf "whitelisting" "whitelist" ++ "|" ++
            baseOf "whitelisting" "whitelist" ++ "\\b)", ({0} : Finset Nat)) ∧
      baseOf "whitelisting" "whitelist" =
        (if "whitelisting" = "whitelist" then regex_escape "whitelisting"
         else "(" ++ regex_escape "whitelisting" ++ "|" ++
           regex_escape "whitelist" ++ ")") ∧
      render (singleRE "whitelisting" "whitelist") =
        "(\\b" ++ baseOf "whitelisting" "whitelist" ++ "|" ++
          baseOf "whitelisting" "whitelist" ++ "\\b)" ∧
      MatchSpan (singleRE "whitelisting" "whitelist")
        "whitelisting".data 0 "whitelisting".data.length ∧
      MatchSpan (singleRE "whitelisting" "whitelist")
        "whitelist".data 0 "whitelist".data.length :=
  single_term_pattern [("whitelisting", "whitelist")]
    (compoundGroups [("whitelisting", "whitelist")]) 0
    "whitelisting" "whitelist" (by decide) (by decide) (by decide)

/-- Claim C9: a path that starts with none of the recognized prefixes
`go:`, `js:`, `rust:` is never an error: `resolve_path` returns it
unchanged, whatever the three resolvers' split and resolve functions
do. -/
theorem resolve_path_no_prefix
    (goSplit jsSplit rustSplit : String → Except String (String × Option String))
    (goRes jsRes rustRes : String → Except String String) (path : String)
    (h1 : strStarts path "go:" = false) (h2 : strStarts path "js:" = false)
    (h3 : strStarts path "rust:" = false) :
    resolve_path goSplit jsSplit rustSplit goRes jsRes rustRes path =
      .ok path := by
  have e1 : strEnds "go:" ":" = true := by decide
  have e2 : strEnds "js:" ":" = true := by decide
  have e3 : strEnds "rust:" ":" = true := by decide
  simp only [resolve_path, resolve_path_with, dropPref, e1, e2, e3,
    h1, h2, h3, Bool.not_true, Bool.false_eq_true, if_false]

/-- Witness for `resolve_path_no_prefix` at the regular path of the
module's own test. -/
theorem resolve_path_no_prefix_witness :
    resolve_path (fun _ => .error "") (fun _ => .error "")
      (fun _ => .error "") (fun _ => .error "") (fun _ => .error "")
      (fun _ => .error "") "/some/regular/path" = .ok "/some/regular/path" :=
  resolve_path_no_prefix _ _ _ _ _ _ "/some/regular/path"
    (by decide) (by decide) (by decide)
